import Mathlib

/-!
Verification development for the streaming HTML-to-Markdown extraction engine
of the ss-markdown-cf-worker repository (src/index.js).

The engine is embedded shallowly:

* The text-normalization pipeline (entity decoding, whitespace collapsing,
  line-break-marker expansion) is translated from the JavaScript regular
  expression passes into fuel-indexed structural scanners over `List Char`.
  Fuel equal to the input length is always sufficient because every scanner
  step consumes at least one character; using fuel keeps every definition
  structurally recursive, hence kernel-computable.
* The `HTMLRewriter`-driven document walk is embedded as a state machine
  `stepEvent` over an explicit event stream.  Each event constructor
  corresponds to one handler invocation of the rewriter (element start,
  element end-tag callback, text chunk routed to one selector's text handler).
  Because the source registers an `onEndTag` callback only when the element
  handler body actually runs (the h2/h3/p handlers return early inside list
  items), the state carries per-tag pending stacks recording whether a
  callback was registered for each currently open element; an end event pops
  that record and runs the callback only when one was registered.
* WHATWG relative-URL resolution (`new URL(href, base)`) is a platform
  builtin, not repository code; it is abstracted as an oracle parameter
  `resolve : String → String → Option String`, `none` meaning the constructor
  threw.
* JavaScript `String.fromCodePoint` accepts surrogate code points and
  produces unpaired UTF-16 surrogates, which Lean strings (sequences of
  Unicode scalar values) cannot represent; numeric character references in
  the surrogate range are therefore kept verbatim here.  No claim depends on
  surrogate references.
-/

/-- Character class of the JavaScript regular-expression `\s` (also the set
trimmed by `String.prototype.trim`). -/
def isJsWs (c : Char) : Bool :=
  let n := c.toNat
  (9 ≤ n && n ≤ 13) || n == 32 || n == 160 || n == 5760 ||
    (8192 ≤ n && n ≤ 8202) || n == 8232 || n == 8233 || n == 8239 ||
    n == 8287 || n == 12288 || n == 65279

/-- Lowercase latin letter, used as a convenient class of inert characters in
general theorems (no whitespace, no ampersand, no underscore, no newline). -/
def isLowerAlpha (c : Char) : Bool :=
  97 ≤ c.toNat && c.toNat ≤ 122

/-- Hexadecimal digit, the class `[0-9a-fA-F]` of the hex entity pattern. -/
def isHexDigitCh (c : Char) : Bool :=
  (48 ≤ c.toNat && c.toNat ≤ 57) || (97 ≤ c.toNat && c.toNat ≤ 102) ||
    (65 ≤ c.toNat && c.toNat ≤ 70)

/-- Decimal digit, the class `[0-9]` of the decimal entity pattern. -/
def isDecDigitCh (c : Char) : Bool :=
  48 ≤ c.toNat && c.toNat ≤ 57

/-- Value of one hexadecimal digit. -/
def hexDigitVal (c : Char) : Nat :=
  if c.toNat ≤ 57 then c.toNat - 48
  else if c.toNat ≤ 70 then c.toNat - 55
  else c.toNat - 87

/-- Value of a hexadecimal digit string, as computed by `parseInt(hex, 16)`. -/
def hexVal (l : List Char) : Nat :=
  l.foldl (fun acc c => 16 * acc + hexDigitVal c) 0

/-- Value of a decimal digit string, as computed by `parseInt(dec, 10)`. -/
def decVal (l : List Char) : Nat :=
  l.foldl (fun acc c => 10 * acc + (c.toNat - 48)) 0

/-- Boolean list-prefix test. -/
def listPrefixOf : List Char → List Char → Bool
  | [], _ => true
  | _ :: _, [] => false
  | p :: ps, c :: cs => p == c && listPrefixOf ps cs

/-- Boolean substring test: does `pat` occur contiguously inside the list? -/
def containsSub (pat : List Char) : List Char → Bool
  | [] => pat.isEmpty
  | c :: cs => listPrefixOf pat (c :: cs) || containsSub pat cs

/-- Worker for whitespace collapsing.  `prevWs` records whether the previous
character belonged to a whitespace run already replaced by one space; this
implements the global replacement of `\s+` by a single space. -/
def collapseWsGo (prevWs : Bool) : List Char → List Char
  | [] => []
  | c :: cs =>
      if isJsWs c then
        if prevWs then collapseWsGo true cs else ' ' :: collapseWsGo true cs
      else c :: collapseWsGo false cs

/-- Replace every maximal whitespace run by a single space (`replace(/\s+/g, " ")`). -/
def collapseWs (l : List Char) : List Char :=
  collapseWsGo false l

/-- Drop trailing JavaScript whitespace. -/
def jsDropEndWs (l : List Char) : List Char :=
  (l.reverse.dropWhile isJsWs).reverse

/-- JavaScript `String.prototype.trim` on character lists. -/
def jsTrim (l : List Char) : List Char :=
  jsDropEndWs (l.dropWhile isJsWs)

/-- Fuel-indexed scanner performing the global replacement of the fixed
pattern `p :: ps` by `repl`, scanning left to right and resuming after each
match, exactly like a `String.replace` with a literal global regex. -/
def fixScan (p : Char) (ps : List Char) (repl : List Char) : Nat → List Char → List Char
  | _, [] => []
  | 0, l => l
  | Nat.succ n, c :: cs =>
      if p == c && listPrefixOf ps cs then
        repl ++ fixScan p ps repl n (cs.drop ps.length)
      else c :: fixScan p ps repl n cs

/-- Global replacement of a fixed nonempty pattern (`str.replace(/pat/g, repl)`). -/
def replaceFix (pat repl s : String) : String :=
  match pat.data with
  | [] => s
  | p :: ps => String.mk (fixScan p ps repl.data s.data.length s.data)

/-- Replacement text for one numeric character reference: the decoded code
point when `String.fromCodePoint` would yield a Unicode scalar value, the
original match otherwise (the source keeps the match verbatim when
`fromCodePoint` throws; surrogate output is unrepresentable here, see the
module comment). -/
def codePointOrKeep (cp : Nat) (original : List Char) : List Char :=
  if cp.isValidChar then [Char.ofNat cp] else original

/-- Fuel-indexed scanner for the pass `replace(/&#x([0-9a-fA-F]+);/g, ...)`. -/
def hexEntScan : Nat → List Char → List Char
  | _, [] => []
  | 0, l => l
  | Nat.succ n, c :: cs =>
      if c == '&' then
        match cs with
        | '#' :: 'x' :: rest =>
            if (rest.takeWhile isHexDigitCh).isEmpty then '&' :: hexEntScan n cs
            else
              match rest.dropWhile isHexDigitCh with
              | ';' :: tail =>
                  codePointOrKeep (hexVal (rest.takeWhile isHexDigitCh))
                      ('&' :: '#' :: 'x' :: (rest.takeWhile isHexDigitCh ++ [';'])) ++
                    hexEntScan n tail
              | _ => '&' :: hexEntScan n cs
        | _ => '&' :: hexEntScan n cs
      else c :: hexEntScan n cs

/-- Fuel-indexed scanner for the pass `replace(/&#([0-9]+);/g, ...)`. -/
def decEntScan : Nat → List Char → List Char
  | _, [] => []
  | 0, l => l
  | Nat.succ n, c :: cs =>
      if c == '&' then
        match cs with
        | '#' :: rest =>
            if (rest.takeWhile isDecDigitCh).isEmpty then '&' :: decEntScan n cs
            else
              match rest.dropWhile isDecDigitCh with
              | ';' :: tail =>
                  codePointOrKeep (decVal (rest.takeWhile isDecDigitCh))
                      ('&' :: '#' :: (rest.takeWhile isDecDigitCh ++ [';'])) ++
                    decEntScan n tail
              | _ => '&' :: decEntScan n cs
        | _ => '&' :: decEntScan n cs
      else c :: decEntScan n cs

/-- The reserved internal line-break marker token (`BR_TOKEN` in the source). -/
def BR_TOKEN : String := "__SSMD_BR__"

/-- The fixed frontmatter schema-version string (`MARKDOWN_VERSION`). -/
def MARKDOWN_VERSION : String := "1.1.0"

/-- `decodeHtmlEntities` from the source: sequential global replacement
passes over the whole string, in the source's order. -/
def decodeHtmlEntities (s : String) : String :=
  if s.data.contains '&' then
    let t := replaceFix "&nbsp;" " " s
    let t := replaceFix "&amp;" "&" t
    let t := replaceFix "&lt;" "<" t
    let t := replaceFix "&gt;" ">" t
    let t := replaceFix "&quot;" "\"" t
    let t := replaceFix "&#39;" "\x27" t
    let t := replaceFix "&apos;" "\x27" t
    let t := String.mk (hexEntScan t.data.length t.data)
    String.mk (decEntScan t.data.length t.data)
  else s

/-- `normalizeInlineText`: decode entities, collapse whitespace runs to single
spaces, trim. -/
def normalizeInlineText (text : String) : String :=
  String.mk (jsTrim (collapseWs (decodeHtmlEntities text).data))

/-- Fuel-indexed scanner for the pass replacing the line-break marker token
together with any surrounding whitespace by one newline
(`replace(new RegExp(backslash-s-star BR_TOKEN backslash-s-star, "g"), "\n")`).
A match at a position exists exactly when the marker follows the maximal
whitespace run starting there, because the marker begins with a
non-whitespace character. -/
def brScan : Nat → List Char → List Char
  | _, [] => []
  | 0, l => l
  | Nat.succ n, c :: cs =>
      if listPrefixOf BR_TOKEN.data ((c :: cs).dropWhile isJsWs) then
        '\n' :: brScan n ((((c :: cs).dropWhile isJsWs).drop BR_TOKEN.data.length).dropWhile isJsWs)
      else c :: brScan n cs

/-- Fuel-indexed scanner collapsing each run of three or more newlines to
exactly two (`replace(/\n{3,}/g, "\n\n")`). -/
def nlScan : Nat → List Char → List Char
  | _, [] => []
  | 0, l => l
  | Nat.succ n, c :: cs =>
      if c == '\n' then
        if 2 ≤ (cs.takeWhile (fun d => d == '\n')).length then
          '\n' :: '\n' :: nlScan n (cs.dropWhile (fun d => d == '\n'))
        else c :: nlScan n cs
      else c :: nlScan n cs

/-- Marker-expansion pass with its canonical fuel. -/
def brRun (l : List Char) : List Char :=
  brScan l.length l

/-- Newline-collapsing pass with its canonical fuel. -/
def nlRun (l : List Char) : List Char :=
  nlScan l.length l

/-- `normalizeBlockText`: decode entities, strip carriage returns, collapse
whitespace and trim, expand marker tokens into newlines, collapse newline
runs of three or more down to two, trim. -/
def normalizeBlockText (text : String) : String :=
  String.mk (jsTrim (nlRun (brRun (jsTrim (collapseWs
    ((decodeHtmlEntities text).data.filter (fun c => !(c == '\r'))))))))

/-- Backslash-prefix every double quote (`replace(/"/g, backslash-quote)`). -/
def escapeQuotesList : List Char → List Char
  | [] => []
  | c :: cs => if c == '"' then '\\' :: '"' :: escapeQuotesList cs else c :: escapeQuotesList cs

/-- String wrapper for `escapeQuotesList`. -/
def escapeQuotes (s : String) : String :=
  String.mk (escapeQuotesList s.data)

/-- `buildMarkdown` from the source: frontmatter (title and description
quote-escaped, url interpolated verbatim), blank line, raw H1 title, optional
blockquote description, content. -/
def buildMarkdown (title description url content : String) : String :=
  let markdown :=
    "---\nversion: \"" ++ MARKDOWN_VERSION ++ "\"\ntitle: \"" ++ escapeQuotes title ++
      "\"\ndescription: \"" ++ escapeQuotes description ++ "\"\nurl: \"" ++ url ++
      "\"\n---\n\n# " ++ title ++ "\n\n"
  let markdown :=
    if description = "" then markdown else markdown ++ "> " ++ description ++ "\n\n"
  markdown ++ content

/-- The four captured content-block kinds. -/
inductive BlockKind where
  | h2
  | h3
  | p
  | li
deriving DecidableEq, Repr

/-- One content block: a kind tag and its (accumulated or normalized) text.
The same record serves as the open block (`state.current`) and as an emitted
block. -/
structure Block where
  kind : BlockKind
  text : String
deriving DecidableEq, Repr

/-- The Markdown line emitted for one block. -/
def blockLine (b : Block) : String :=
  match b.kind with
  | BlockKind.h2 => "## " ++ b.text
  | BlockKind.h3 => "### " ++ b.text
  | BlockKind.li => "- " ++ b.text
  | BlockKind.p => b.text

/-- The indexed loop of `blocksToMarkdown`: at index `i` push the block's
line, then push a separating empty line unless both this block and the next
are list items.  Fuel counts the remaining indices. -/
def bmAux (blocks : List Block) : Nat → Nat → List String
  | 0, _ => []
  | Nat.succ n, i =>
      match blocks.get? i with
      | none => []
      | some b =>
          match blocks.get? (i + 1) with
          | none => [blockLine b]
          | some next =>
              if b.kind = BlockKind.li ∧ next.kind = BlockKind.li then
                blockLine b :: bmAux blocks n (i + 1)
              else blockLine b :: "" :: bmAux blocks n (i + 1)

/-- `blocksToMarkdown` from the source: build the line list, join with
newlines, trim. -/
def blocksToMarkdown (blocks : List Block) : String :=
  String.mk (jsTrim (String.intercalate "\n" (bmAux blocks blocks.length 0)).data)

/-- The order-preserving de-duplication loop of `dedupeAndJoinTitle`
(`if (!uniq.includes(p)) uniq.push(p)`). -/
def jsUniqGo (acc : List String) : List String → List String
  | [] => acc
  | p :: rest => if acc.contains p then jsUniqGo acc rest else jsUniqGo (acc ++ [p]) rest

/-- `dedupeAndJoinTitle` from the source: normalize each fragment, drop empty
ones, de-duplicate preserving order, join with single spaces, trim. -/
def dedupeAndJoinTitle (parts : List String) : String :=
  String.mk (jsTrim (String.intercalate " "
    (jsUniqGo [] ((parts.map normalizeInlineText).filter (fun p => !(p == ""))))).data)

/-- One pending hyperlink capture frame (`{href, text}` on `state.linkStack`);
the head of the list is the top of the stack. -/
structure LinkFrame where
  href : String
  text : String
deriving DecidableEq, Repr

/-- The mutable state of one document walk (`state` in
`extractPageDataFromHtml`), extended with the pending end-tag-callback
records explained in the module comment.  `pendingH2 = true :: _` means the
innermost open h2 element registered an `onEndTag` callback. -/
structure WalkState where
  description : String := ""
  canonical : String := ""
  titleParts : List String := []
  collectingTitle : Bool := true
  blocks : List Block := []
  current : Option Block := none
  inLiDepth : Nat := 0
  linkStack : List LinkFrame := []
  pendingH2 : List Bool := []
  pendingH3 : List Bool := []
  pendingP : List Bool := []
  pendingStrong : Nat := 0
  pendingEm : Nat := 0
deriving DecidableEq, Repr

/-- One handler invocation of the rewriter walk.  Text events are tagged with
the selector whose `text()` handler receives the chunk; a chunk matched by
several selectors (such as text inside a `p` nested in an `li`) appears once
per matching handler, in registration order. -/
inductive Event where
  | metaDescription (content : String)
  | canonicalLink (href : String)
  | titleText (t : String)
  | h2Start
  | h2End
  | h2Text (t : String)
  | h3Start
  | h3End
  | h3Text (t : String)
  | pStart
  | pEnd
  | pText (t : String)
  | liStart
  | liEnd
  | liText (t : String)
  | brTag
  | strongStart
  | strongEnd
  | emStart
  | emEnd
  | aStart (href : String)
  | aEnd
deriving DecidableEq, Repr

/-- `beginBlock`: open a fresh block of the given kind, overwriting any block
still in the open slot. -/
def beginBlock (kind : BlockKind) (s : WalkState) : WalkState :=
  { s with current := some { kind := kind, text := "" } }

/-- `appendToCurrent`: drop the text when no block is open; otherwise route it
to the top link frame when the link stack is nonempty, else to the open
block. -/
def appendToCurrent (t : String) (s : WalkState) : WalkState :=
  match s.current with
  | none => s
  | some cur =>
      match s.linkStack with
      | f :: rest => { s with linkStack := { f with text := f.text ++ t } :: rest }
      | [] => { s with current := some { cur with text := cur.text ++ t } }

/-- `endBlock`: normalize the open block's text (inline mode for h2/h3/li,
block-preserving mode for p), emit it when nonempty, clear the open slot. -/
def endBlock (s : WalkState) : WalkState :=
  match s.current with
  | none => s
  | some cur =>
      let text :=
        if cur.kind = BlockKind.h2 ∨ cur.kind = BlockKind.h3 ∨ cur.kind = BlockKind.li then
          normalizeInlineText cur.text
        else normalizeBlockText cur.text
      if text = "" then { s with current := none }
      else { s with blocks := s.blocks ++ [{ kind := cur.kind, text := text }], current := none }

/-- `pushLink`: resolve the href against the canonical URL when set, else the
fallback URL; on resolution failure keep the raw attribute value. -/
def pushLink (resolve : String → String → Option String) (fallbackUrl href : String)
    (s : WalkState) : WalkState :=
  let base := if s.canonical = "" then fallbackUrl else s.canonical
  let resolved :=
    match resolve href base with
    | some u => u
    | none => href
  { s with linkStack := { href := resolved, text := "" } :: s.linkStack }

/-- The display text chosen by `popLinkToCurrent`
(`normalizeInlineText(link.text) || link.href || ""`). -/
def linkDisplayText (f : LinkFrame) : String :=
  if normalizeInlineText f.text = "" then f.href else normalizeInlineText f.text

/-- The inline-Markdown fragment rendered for one popped link frame. -/
def linkFragment (f : LinkFrame) : String :=
  "[" ++ linkDisplayText f ++ "](" ++ f.href ++ ")"

/-- `popLinkToCurrent`: pop the top frame, fall back to the href as display
text, and append the rendered fragment through `appendToCurrent` (on the
already-popped state) when the display text is nonempty. -/
def popLinkToCurrent (s : WalkState) : WalkState :=
  match s.linkStack with
  | [] => s
  | link :: rest =>
      let popped := { s with linkStack := rest }
      if linkDisplayText link = "" then popped
      else appendToCurrent (linkFragment link) popped

/-- `stopCollectingTitleIfNeeded`: one-shot transition of the
collecting-title flag. -/
def stopCollectingTitleIfNeeded (s : WalkState) : WalkState :=
  if s.collectingTitle then { s with collectingTitle := false } else s

/-- The walk's transition function: one rewriter handler invocation. -/
def stepEvent (resolve : String → String → Option String) (fallbackUrl : String)
    (s : WalkState) : Event → WalkState
  | Event.metaDescription content =>
      if s.description = "" then { s with description := normalizeInlineText content } else s
  | Event.canonicalLink href =>
      if s.canonical = "" then { s with canonical := normalizeInlineText href } else s
  | Event.titleText t =>
      if s.collectingTitle then
        if normalizeInlineText t = "" then s
        else { s with titleParts := s.titleParts ++ [normalizeInlineText t] }
      else s
  | Event.h2Start =>
      if s.inLiDepth = 0 then
        let s1 := beginBlock BlockKind.h2 (stopCollectingTitleIfNeeded s)
        { s1 with pendingH2 := true :: s1.pendingH2 }
      else { s with pendingH2 := false :: s.pendingH2 }
  | Event.h2End =>
      match s.pendingH2 with
      | [] => s
      | registered :: rest =>
          if registered then { endBlock s with pendingH2 := rest }
          else { s with pendingH2 := rest }
  | Event.h2Text t =>
      match s.current with
      | some cur => if cur.kind = BlockKind.h2 then appendToCurrent t s else s
      | none => s
  | Event.h3Start =>
      if s.inLiDepth = 0 then
        let s1 := beginBlock BlockKind.h3 (stopCollectingTitleIfNeeded s)
        { s1 with pendingH3 := true :: s1.pendingH3 }
      else { s with pendingH3 := false :: s.pendingH3 }
  | Event.h3End =>
      match s.pendingH3 with
      | [] => s
      | registered :: rest =>
          if registered then { endBlock s with pendingH3 := rest }
          else { s with pendingH3 := rest }
  | Event.h3Text t =>
      match s.current with
      | some cur => if cur.kind = BlockKind.h3 then appendToCurrent t s else s
      | none => s
  | Event.pStart =>
      if s.inLiDepth = 0 then
        let s1 := beginBlock BlockKind.p (stopCollectingTitleIfNeeded s)
        { s1 with pendingP := true :: s1.pendingP }
      else { s with pendingP := false :: s.pendingP }
  | Event.pEnd =>
      match s.pendingP with
      | [] => s
      | registered :: rest =>
          if registered then { endBlock s with pendingP := rest }
          else { s with pendingP := rest }
  | Event.pText t =>
      match s.current with
      | some cur => if cur.kind = BlockKind.p then appendToCurrent t s else s
      | none => s
  | Event.liStart =>
      let s1 := stopCollectingTitleIfNeeded s
      beginBlock BlockKind.li { s1 with inLiDepth := s1.inLiDepth + 1 }
  | Event.liEnd =>
      if s.inLiDepth = 0 then s
      else { endBlock s with inLiDepth := s.inLiDepth - 1 }
  | Event.liText t =>
      match s.current with
      | some cur => if cur.kind = BlockKind.li then appendToCurrent t s else s
      | none => s
  | Event.brTag => appendToCurrent BR_TOKEN s
  | Event.strongStart =>
      { appendToCurrent "**" s with pendingStrong := s.pendingStrong + 1 }
  | Event.strongEnd =>
      if s.pendingStrong = 0 then s
      else { appendToCurrent "**" s with pendingStrong := s.pendingStrong - 1 }
  | Event.emStart =>
      { appendToCurrent "*" s with pendingEm := s.pendingEm + 1 }
  | Event.emEnd =>
      if s.pendingEm = 0 then s
      else { appendToCurrent "*" s with pendingEm := s.pendingEm - 1 }
  | Event.aStart href => pushLink resolve fallbackUrl href s
  | Event.aEnd => popLinkToCurrent s

/-- Run a whole walk over an event stream from the initial state. -/
def runWalk (resolve : String → String → Option String) (fallbackUrl : String)
    (events : List Event) : WalkState :=
  events.foldl (stepEvent resolve fallbackUrl) {}

/-- The structured output of one walk. -/
structure PageResult where
  title : String
  description : String
  url : String
  content : String
deriving DecidableEq, Repr

/-- Convert the final walk state into the returned page data. -/
def finishWalk (fallbackUrl : String) (s : WalkState) : PageResult :=
  { title := dedupeAndJoinTitle s.titleParts
    description := s.description
    url := if s.canonical = "" then fallbackUrl else s.canonical
    content := blocksToMarkdown s.blocks }

/-- End-to-end engine on an event stream. -/
def extractPageData (resolve : String → String → Option String) (fallbackUrl : String)
    (events : List Event) : PageResult :=
  finishWalk fallbackUrl (runWalk resolve fallbackUrl events)

/-- Spec-side renderer line list, written from the claim's words: one line
per block, with one separating blank line between consecutive blocks unless
both are list items. -/
def rendererLinesSpec : List Block → List String
  | [] => []
  | [b] => [blockLine b]
  | b :: next :: rest =>
      if b.kind = BlockKind.li ∧ next.kind = BlockKind.li then
        blockLine b :: rendererLinesSpec (next :: rest)
      else blockLine b :: "" :: rendererLinesSpec (next :: rest)

/-- Spec-side first-occurrence de-duplication: keep the first occurrence of
each value in place and drop later equal ones (fuel-indexed worker). -/
def dedupFirstGo : Nat → List String → List String
  | _, [] => []
  | 0, _ :: _ => []
  | Nat.succ n, x :: xs => x :: dedupFirstGo n (xs.filter (fun y => !(y == x)))

/-- Spec-side first-occurrence de-duplication. -/
def dedupFirstSpec (l : List String) : List String :=
  dedupFirstGo l.length l

/-- Worker for `quotesEscaped`: scans with the previous character, requiring
a backslash right before every double quote. -/
def quotesEscapedFrom (prev : Char) : List Char → Bool
  | [] => true
  | c :: cs => ((c != '"') || (prev == '\\')) && quotesEscapedFrom c cs

/-- Every double quote in the list is immediately preceded by a backslash
(the initial previous character is a non-backslash placeholder, so a leading
quote counts as unescaped). -/
def quotesEscaped (l : List Char) : Bool :=
  quotesEscapedFrom 'a' l

/-- All characters of the string are lowercase latin letters. -/
def LowerStr (s : String) : Prop :=
  ∀ c ∈ s.data, isLowerAlpha c = true

instance (s : String) : Decidable (LowerStr s) := by
  unfold LowerStr
  infer_instance

/-! ## Generic helper lemmas -/

theorem string_mk_data (s : String) : String.mk s.data = s :=
  rfl

theorem string_ne_empty_iff {s : String} : s ≠ "" ↔ s.data ≠ [] := by
  constructor
  · intro h hd
    exact h (String.ext hd)
  · intro h he
    exact h (by rw [he])

theorem lowerAlpha_toNat {c : Char} (h : isLowerAlpha c = true) :
    97 ≤ c.toNat ∧ c.toNat ≤ 122 := by
  simpa [isLowerAlpha] using h

theorem lower_not_ws {c : Char} (h : isLowerAlpha c = true) : isJsWs c = false := by
  obtain ⟨h1, h2⟩ := lowerAlpha_toNat h
  simp only [isJsWs, Bool.or_eq_false_iff, Bool.and_eq_false_iff,
    decide_eq_false_iff_not, beq_eq_false_iff_ne, ne_eq]
  omega

theorem lower_ne_amp {c : Char} (h : isLowerAlpha c = true) : c ≠ '&' := by
  obtain ⟨h1, _⟩ := lowerAlpha_toNat h
  intro hc
  rw [hc] at h1
  have : ('&').toNat = 38 := rfl
  omega

theorem lower_ne_cr {c : Char} (h : isLowerAlpha c = true) : c ≠ '\r' := by
  obtain ⟨h1, _⟩ := lowerAlpha_toNat h
  intro hc
  rw [hc] at h1
  have : ('\r').toNat = 13 := rfl
  omega

theorem lower_ne_nl {c : Char} (h : isLowerAlpha c = true) : (c == '\n') = false := by
  obtain ⟨h1, _⟩ := lowerAlpha_toNat h
  simp only [beq_eq_false_iff_ne, ne_eq]
  intro hc
  rw [hc] at h1
  have : ('\n').toNat = 10 := rfl
  omega

theorem lower_ne_underscore {c : Char} (h : isLowerAlpha c = true) :
    ('_' == c) = false := by
  obtain ⟨h1, _⟩ := lowerAlpha_toNat h
  simp only [beq_eq_false_iff_ne, ne_eq]
  intro hc
  rw [← hc] at h1
  have : ('_').toNat = 95 := rfl
  omega

theorem brTok_not_ws : ∀ c ∈ BR_TOKEN.data, isJsWs c = false := by decide

theorem brTok_ne_amp : ∀ c ∈ BR_TOKEN.data, c ≠ '&' := by decide

theorem brTok_ne_cr : ∀ c ∈ BR_TOKEN.data, c ≠ '\r' := by decide

theorem nl_not_lower : isLowerAlpha '\n' = false := by decide

theorem contains_amp_false {l : List Char} (h : '&' ∉ l) : l.contains '&' = false := by
  simpa using h

theorem decodeHtmlEntities_eq_self {s : String} (h : '&' ∉ s.data) :
    decodeHtmlEntities s = s := by
  unfold decodeHtmlEntities
  rw [contains_amp_false h]
  simp

theorem filter_cr_eq_self {l : List Char} (h : ∀ c ∈ l, c ≠ '\r') :
    l.filter (fun c => !(c == '\r')) = l := by
  rw [List.filter_eq_self]
  intro a ha
  simpa using h a ha

theorem collapseWsGo_eq_self {l : List Char} (h : ∀ c ∈ l, isJsWs c = false) :
    ∀ b, collapseWsGo b l = l := by
  induction l with
  | nil => intro b; rfl
  | cons c cs ih =>
      intro b
      have hc : isJsWs c = false := h c (List.mem_cons_self c cs)
      simp only [collapseWsGo, hc, Bool.false_eq_true, if_false]
      rw [ih (fun x hx => h x (List.mem_cons_of_mem c hx)) false]

theorem collapseWs_eq_self {l : List Char} (h : ∀ c ∈ l, isJsWs c = false) :
    collapseWs l = l :=
  collapseWsGo_eq_self h false

theorem dropWhile_ws_eq_self {l : List Char}
    (h : ∀ c, l.head? = some c → isJsWs c = false) : l.dropWhile isJsWs = l := by
  cases l with
  | nil => rfl
  | cons c cs =>
      have hc : isJsWs c = false := h c rfl
      simp [List.dropWhile_cons, hc]

theorem mem_of_mem_getLast? {l : List Char} {c : Char} (h : l.getLast? = some c) :
    c ∈ l := by
  have h1 : l.reverse.head? = some c := by rwa [List.head?_reverse]
  have h2 : c ∈ l.reverse := List.mem_of_mem_head? (by rw [h1]; rfl)
  exact List.mem_reverse.mp h2

theorem jsTrim_eq_self {l : List Char}
    (hh : ∀ c, l.head? = some c → isJsWs c = false)
    (hl : ∀ c, l.getLast? = some c → isJsWs c = false) : jsTrim l = l := by
  unfold jsTrim jsDropEndWs
  rw [dropWhile_ws_eq_self hh]
  rw [dropWhile_ws_eq_self (fun c hc => hl c (by rwa [List.head?_reverse] at hc))]
  exact List.reverse_reverse l

theorem jsTrim_eq_self_of_all {l : List Char} (h : ∀ c ∈ l, isJsWs c = false) :
    jsTrim l = l :=
  jsTrim_eq_self (fun c hc => h c (List.mem_of_mem_head? (by rw [hc]; rfl)))
    (fun c hc => h c (mem_of_mem_getLast? hc))

theorem head?_append_left {l r : List Char} (h : l ≠ []) :
    (l ++ r).head? = l.head? := by
  cases l with
  | nil => exact absurd rfl h
  | cons c cs => rfl

theorem getLast?_append_right {l r : List Char} (h : r ≠ []) :
    (l ++ r).getLast? = r.getLast? := by
  rw [← List.head?_reverse, ← List.head?_reverse, List.reverse_append]
  exact head?_append_left (by simpa using h)

theorem normalizeInlineText_eq_self_of {s : String}
    (hws : ∀ c ∈ s.data, isJsWs c = false) (hamp : '&' ∉ s.data) :
    normalizeInlineText s = s := by
  unfold normalizeInlineText
  rw [decodeHtmlEntities_eq_self hamp, collapseWs_eq_self hws,
    jsTrim_eq_self_of_all hws]

/-! ## Scanner lemmas: marker expansion and newline collapsing -/

theorem length_dropWhile_ws_le (l : List Char) :
    (l.dropWhile isJsWs).length ≤ l.length :=
  (List.dropWhile_sublist isJsWs).length_le

theorem brTok_data_eq :
    BR_TOKEN.data =
      '_' :: '_' :: 'S' :: 'S' :: 'M' :: 'D' :: '_' :: 'B' :: 'R' :: '_' :: '_' :: [] :=
  rfl

theorem listPrefixOf_brTok_lowerHead {c : Char} {cs : List Char}
    (hc : isLowerAlpha c = true) :
    listPrefixOf BR_TOKEN.data (c :: cs) = false := by
  rw [brTok_data_eq]
  simp only [listPrefixOf, Bool.and_eq_false_iff]
  exact Or.inl (lower_ne_underscore hc)

theorem listPrefixOf_self_append : ∀ (p l : List Char), listPrefixOf p (p ++ l) = true := by
  intro p
  induction p with
  | nil => intro l; rfl
  | cons c cs ih => intro l; simp [listPrefixOf, ih]

theorem brTail_length_le {c : Char} {cs : List Char} :
    ((((c :: cs).dropWhile isJsWs).drop BR_TOKEN.data.length).dropWhile isJsWs).length ≤
      cs.length := by
  have h11 : BR_TOKEN.data.length = 11 := rfl
  have h3 := length_dropWhile_ws_le (((c :: cs).dropWhile isJsWs).drop BR_TOKEN.data.length)
  by_cases hc : isJsWs c = true
  · have h1 : (c :: cs).dropWhile isJsWs = cs.dropWhile isJsWs :=
      List.dropWhile_cons_of_pos hc
    have h2 := length_dropWhile_ws_le cs
    rw [h1] at h3
    rw [h1]
    simp only [List.length_drop] at h3 ⊢
    omega
  · have h1 : (c :: cs).dropWhile isJsWs = c :: cs :=
      List.dropWhile_cons_of_neg (by simpa using hc)
    rw [h1] at h3
    rw [h1]
    simp only [List.length_drop, List.length_cons, h11] at h3 ⊢
    omega

theorem brScan_norm : ∀ (n : Nat) (l : List Char), l.length ≤ n → brScan n l = brRun l := by
  intro n
  induction n using Nat.strong_induction_on with
  | _ n ih =>
    intro l hl
    cases l with
    | nil => cases n <;> rfl
    | cons c cs =>
        cases n with
        | zero => simp at hl
        | succ m =>
            have hm : cs.length ≤ m := by
              simpa [Nat.succ_le_succ_iff] using hl
            show brScan (m + 1) (c :: cs) = brScan (cs.length + 1) (c :: cs)
            simp only [brScan]
            by_cases hcond :
                listPrefixOf BR_TOKEN.data ((c :: cs).dropWhile isJsWs) = true
            · rw [if_pos hcond, if_pos hcond]
              have htail := @brTail_length_le c cs
              have e1 := ih m (by omega) _ (le_trans htail hm)
              have e2 := ih cs.length (by omega) _ htail
              rw [e1, e2]
            · rw [if_neg hcond, if_neg hcond]
              have e1 := ih m (by omega) cs hm
              have e2 := ih cs.length (by omega) cs (le_refl _)
              rw [e1, e2]

theorem brRun_nil : brRun [] = [] := rfl

theorem brRun_cons_nomatch {c : Char} {cs : List Char}
    (h : listPrefixOf BR_TOKEN.data ((c :: cs).dropWhile isJsWs) = false) :
    brRun (c :: cs) = c :: brRun cs := by
  show brScan (cs.length + 1) (c :: cs) = c :: brRun cs
  simp only [brScan]
  rw [if_neg (by simp [h])]
  rfl

theorem brRun_cons_match {c : Char} {cs : List Char}
    (h : listPrefixOf BR_TOKEN.data ((c :: cs).dropWhile isJsWs) = true) :
    brRun (c :: cs) =
      '\n' :: brRun ((((c :: cs).dropWhile isJsWs).drop BR_TOKEN.data.length).dropWhile isJsWs) := by
  show brScan (cs.length + 1) (c :: cs) = _
  simp only [brScan]
  rw [if_pos h]
  rw [brScan_norm cs.length _ (@brTail_length_le c cs)]

theorem brRun_copy {A : List Char} (hA : ∀ c ∈ A, isLowerAlpha c = true) (r : List Char) :
    brRun (A ++ r) = A ++ brRun r := by
  induction A with
  | nil => rfl
  | cons c A' ih =>
      have hc : isLowerAlpha c = true := hA c (List.mem_cons_self c A')
      have hrest : ∀ x ∈ A', isLowerAlpha x = true :=
        fun x hx => hA x (List.mem_cons_of_mem c hx)
      have hdw : (c :: (A' ++ r)).dropWhile isJsWs = c :: (A' ++ r) :=
        List.dropWhile_cons_of_neg (by simp [lower_not_ws hc])
      have hno : listPrefixOf BR_TOKEN.data ((c :: (A' ++ r)).dropWhile isJsWs) = false := by
        rw [hdw]
        exact listPrefixOf_brTok_lowerHead hc
      rw [List.cons_append, brRun_cons_nomatch hno, ih hrest]
      simp

theorem brRun_lower {A : List Char} (hA : ∀ c ∈ A, isLowerAlpha c = true) :
    brRun A = A := by
  have := brRun_copy hA []
  simpa [brRun_nil] using this

theorem brRun_match {l : List Char} (hne : l ≠ [])
    (h : listPrefixOf BR_TOKEN.data (l.dropWhile isJsWs) = true) :
    brRun l =
      '\n' :: brRun (((l.dropWhile isJsWs).drop BR_TOKEN.data.length).dropWhile isJsWs) := by
  cases l with
  | nil => exact absurd rfl hne
  | cons c cs => exact brRun_cons_match h

theorem brRun_token {r : List Char} (hr : ∀ c, r.head? = some c → isJsWs c = false) :
    brRun (BR_TOKEN.data ++ r) = '\n' :: brRun r := by
  have hus : isJsWs '_' = false := by decide
  have hdw : (BR_TOKEN.data ++ r).dropWhile isJsWs = BR_TOKEN.data ++ r := by
    rw [brTok_data_eq]
    exact List.dropWhile_cons_of_neg (by simp [hus])
  have hmatch : listPrefixOf BR_TOKEN.data ((BR_TOKEN.data ++ r).dropWhile isJsWs) = true := by
    rw [hdw]
    exact listPrefixOf_self_append _ _
  have hne : BR_TOKEN.data ++ r ≠ [] := by
    rw [brTok_data_eq]
    simp
  rw [brRun_match hne hmatch, hdw, List.drop_left, dropWhile_ws_eq_self hr]

theorem nlScan_norm : ∀ (n : Nat) (l : List Char), l.length ≤ n → nlScan n l = nlRun l := by
  intro n
  induction n using Nat.strong_induction_on with
  | _ n ih =>
    intro l hl
    cases l with
    | nil => cases n <;> rfl
    | cons c cs =>
        cases n with
        | zero => simp at hl
        | succ m =>
            have hm : cs.length ≤ m := by
              simpa [Nat.succ_le_succ_iff] using hl
            have htail : (cs.dropWhile (fun d => d == '\n')).length ≤ cs.length :=
              (List.dropWhile_sublist _).length_le
            show nlScan (m + 1) (c :: cs) = nlScan (cs.length + 1) (c :: cs)
            simp only [nlScan]
            by_cases hc : (c == '\n') = true
            · rw [if_pos hc, if_pos hc]
              by_cases hlen : 2 ≤ (cs.takeWhile (fun d => d == '\n')).length
              · rw [if_pos hlen, if_pos hlen]
                rw [ih m (by omega) _ (le_trans htail hm),
                  ih cs.length (by omega) _ htail]
              · rw [if_neg hlen, if_neg hlen]
                rw [ih m (by omega) cs hm, ih cs.length (by omega) cs (le_refl _)]
            · rw [if_neg (by simpa using hc), if_neg (by simpa using hc)]
              rw [ih m (by omega) cs hm, ih cs.length (by omega) cs (le_refl _)]

theorem nlRun_cons_nonl {c : Char} {cs : List Char} (h : (c == '\n') = false) :
    nlRun (c :: cs) = c :: nlRun cs := by
  show nlScan (cs.length + 1) (c :: cs) = c :: nlRun cs
  simp only [nlScan]
  rw [if_neg (by simp [h])]
  rw [nlScan_norm cs.length cs (le_refl _)]

theorem nlRun_cons_nl_short {cs : List Char}
    (h : ¬2 ≤ (cs.takeWhile (fun d => d == '\n')).length) :
    nlRun ('\n' :: cs) = '\n' :: nlRun cs := by
  show nlScan (cs.length + 1) ('\n' :: cs) = '\n' :: nlRun cs
  simp only [nlScan]
  rw [if_pos (by rfl), if_neg h]
  rw [nlScan_norm cs.length cs (le_refl _)]

theorem nlRun_copy {A : List Char} (hA : ∀ c ∈ A, isLowerAlpha c = true) (r : List Char) :
    nlRun (A ++ r) = A ++ nlRun r := by
  induction A with
  | nil => rfl
  | cons c A' ih =>
      have hc : isLowerAlpha c = true := hA c (List.mem_cons_self c A')
      have hrest : ∀ x ∈ A', isLowerAlpha x = true :=
        fun x hx => hA x (List.mem_cons_of_mem c hx)
      rw [List.cons_append, nlRun_cons_nonl (lower_ne_nl hc), ih hrest]
      simp

theorem nlRun_lower {A : List Char} (hA : ∀ c ∈ A, isLowerAlpha c = true) :
    nlRun A = A := by
  have h0 : nlRun [] = [] := rfl
  have := nlRun_copy hA []
  simpa [h0] using this

theorem nlRun_single_nl {r : List Char}
    (hr : ∀ c, r.head? = some c → (c == '\n') = false) :
    nlRun ('\n' :: r) = '\n' :: nlRun r := by
  apply nlRun_cons_nl_short
  cases r with
  | nil => simp
  | cons c cs =>
      have := hr c rfl
      rw [List.takeWhile_cons]
      simp [this]

/-! ## Composed normalization lemmas for marker-bearing texts -/

theorem lowerStr_data {a : String} (ha : LowerStr a) : ∀ c ∈ a.data, isLowerAlpha c = true :=
  ha

theorem head?_lower_not_ws {B : List Char} (hB : ∀ c ∈ B, isLowerAlpha c = true) :
    ∀ c, B.head? = some c → isJsWs c = false :=
  fun c hc => lower_not_ws (hB c (List.mem_of_mem_head? (by rw [hc]; rfl)))

theorem head?_lower_not_nl {B : List Char} (hB : ∀ c ∈ B, isLowerAlpha c = true) :
    ∀ c, B.head? = some c → (c == '\n') = false :=
  fun c hc => lower_ne_nl (hB c (List.mem_of_mem_head? (by rw [hc]; rfl)))

theorem normalizeBlockText_one_token {a b : String} (ha : LowerStr a) (hb : LowerStr b)
    (hae : a ≠ "") (hbe : b ≠ "") :
    normalizeBlockText (a ++ BR_TOKEN ++ b) = a ++ "\n" ++ b := by
  have hA : ∀ c ∈ a.data, isLowerAlpha c = true := ha
  have hB : ∀ c ∈ b.data, isLowerAlpha c = true := hb
  have hdata : (a ++ BR_TOKEN ++ b).data = a.data ++ (BR_TOKEN.data ++ b.data) := by
    simp [List.append_assoc]
  have hws : ∀ c ∈ a.data ++ (BR_TOKEN.data ++ b.data), isJsWs c = false := by
    intro c hc
    rcases List.mem_append.mp hc with h1 | h2
    · exact lower_not_ws (hA c h1)
    · rcases List.mem_append.mp h2 with h3 | h4
      · exact brTok_not_ws c h3
      · exact lower_not_ws (hB c h4)
  have hamp : '&' ∉ (a ++ BR_TOKEN ++ b).data := by
    rw [hdata]
    intro hc
    rcases List.mem_append.mp hc with h1 | h2
    · exact lower_ne_amp (hA _ h1) rfl
    · rcases List.mem_append.mp h2 with h3 | h4
      · exact brTok_ne_amp _ h3 rfl
      · exact lower_ne_amp (hB _ h4) rfl
  have hcr : ∀ c ∈ a.data ++ (BR_TOKEN.data ++ b.data), c ≠ '\r' := by
    intro c hc
    rcases List.mem_append.mp hc with h1 | h2
    · exact lower_ne_cr (hA c h1)
    · rcases List.mem_append.mp h2 with h3 | h4
      · exact brTok_ne_cr c h3
      · exact lower_ne_cr (hB c h4)
  have hAne : a.data ≠ [] := string_ne_empty_iff.mp hae
  have hBne : b.data ≠ [] := string_ne_empty_iff.mp hbe
  unfold normalizeBlockText
  rw [decodeHtmlEntities_eq_self hamp, hdata, filter_cr_eq_self hcr,
    collapseWs_eq_self hws, jsTrim_eq_self_of_all hws]
  rw [brRun_copy hA, brRun_token (head?_lower_not_ws hB), brRun_lower hB]
  rw [nlRun_copy hA, nlRun_single_nl (head?_lower_not_nl hB), nlRun_lower hB]
  have htrim : jsTrim (a.data ++ '\n' :: b.data) = a.data ++ '\n' :: b.data := by
    apply jsTrim_eq_self
    · intro c hc
      rw [head?_append_left hAne] at hc
      exact lower_not_ws (hA c (List.mem_of_mem_head? (by rw [hc]; rfl)))
    · intro c hc
      rw [getLast?_append_right (by simp)] at hc
      rw [show ('\n' :: b.data) = ['\n'] ++ b.data from rfl,
        getLast?_append_right hBne] at hc
      exact lower_not_ws (hB c (mem_of_mem_getLast? hc))
  rw [htrim]
  apply String.ext
  simp [List.append_assoc]

theorem normalizeBlockText_two_tokens {a b c : String}
    (ha : LowerStr a) (hb : LowerStr b) (hc : LowerStr c)
    (hae : a ≠ "") (hbe : b ≠ "") (hce : c ≠ "") :
    normalizeBlockText (a ++ BR_TOKEN ++ b ++ BR_TOKEN ++ c) =
      a ++ "\n" ++ b ++ "\n" ++ c := by
  have hA : ∀ x ∈ a.data, isLowerAlpha x = true := ha
  have hB : ∀ x ∈ b.data, isLowerAlpha x = true := hb
  have hC : ∀ x ∈ c.data, isLowerAlpha x = true := hc
  have hdata : (a ++ BR_TOKEN ++ b ++ BR_TOKEN ++ c).data =
      a.data ++ (BR_TOKEN.data ++ (b.data ++ (BR_TOKEN.data ++ c.data))) := by
    simp [List.append_assoc]
  have hmem : ∀ x ∈ a.data ++ (BR_TOKEN.data ++ (b.data ++ (BR_TOKEN.data ++ c.data))),
      isLowerAlpha x = true ∨ x ∈ BR_TOKEN.data := by
    intro x hx
    rcases List.mem_append.mp hx with h1 | h2
    · exact Or.inl (hA x h1)
    rcases List.mem_append.mp h2 with h3 | h4
    · exact Or.inr h3
    rcases List.mem_append.mp h4 with h5 | h6
    · exact Or.inl (hB x h5)
    rcases List.mem_append.mp h6 with h7 | h8
    · exact Or.inr h7
    · exact Or.inl (hC x h8)
  have hws : ∀ x ∈ a.data ++ (BR_TOKEN.data ++ (b.data ++ (BR_TOKEN.data ++ c.data))),
      isJsWs x = false := by
    intro x hx
    rcases hmem x hx with h | h
    · exact lower_not_ws h
    · exact brTok_not_ws x h
  have hamp : '&' ∉ (a ++ BR_TOKEN ++ b ++ BR_TOKEN ++ c).data := by
    rw [hdata]
    intro hx
    rcases hmem _ hx with h | h
    · exact lower_ne_amp h rfl
    · exact brTok_ne_amp _ h rfl
  have hcr : ∀ x ∈ a.data ++ (BR_TOKEN.data ++ (b.data ++ (BR_TOKEN.data ++ c.data))),
      x ≠ '\r' := by
    intro x hx
    rcases hmem x hx with h | h
    · exact lower_ne_cr h
    · exact brTok_ne_cr x h
  have hAne : a.data ≠ [] := string_ne_empty_iff.mp hae
  have hBne : b.data ≠ [] := string_ne_empty_iff.mp hbe
  have hCne : c.data ≠ [] := string_ne_empty_iff.mp hce
  have hBhead : ∀ x, (b.data ++ (BR_TOKEN.data ++ c.data)).head? = some x → isJsWs x = false := by
    intro x hx
    rw [head?_append_left hBne] at hx
    exact lower_not_ws (hB x (List.mem_of_mem_head? (by rw [hx]; rfl)))
  unfold normalizeBlockText
  rw [decodeHtmlEntities_eq_self hamp, hdata, filter_cr_eq_self hcr,
    collapseWs_eq_self hws, jsTrim_eq_self_of_all hws]
  rw [brRun_copy hA, brRun_token hBhead, brRun_copy hB,
    brRun_token (head?_lower_not_ws hC), brRun_lower hC]
  have hBheadNl : ∀ x, (b.data ++ '\n' :: c.data).head? = some x → (x == '\n') = false := by
    intro x hx
    rw [head?_append_left hBne] at hx
    exact lower_ne_nl (hB x (List.mem_of_mem_head? (by rw [hx]; rfl)))
  rw [nlRun_copy hA, nlRun_single_nl hBheadNl, nlRun_copy hB,
    nlRun_single_nl (head?_lower_not_nl hC), nlRun_lower hC]
  have htrim : jsTrim (a.data ++ '\n' :: (b.data ++ '\n' :: c.data)) =
      a.data ++ '\n' :: (b.data ++ '\n' :: c.data) := by
    apply jsTrim_eq_self
    · intro x hx
      rw [head?_append_left hAne] at hx
      exact lower_not_ws (hA x (List.mem_of_mem_head? (by rw [hx]; rfl)))
    · intro x hx
      rw [getLast?_append_right (by simp)] at hx
      rw [show ('\n' :: (b.data ++ '\n' :: c.data)) = ['\n'] ++ (b.data ++ '\n' :: c.data)
          from rfl, getLast?_append_right (by simp)] at hx
      rw [getLast?_append_right (by simp)] at hx
      rw [show ('\n' :: c.data) = ['\n'] ++ c.data from rfl,
        getLast?_append_right hCne] at hx
      exact lower_not_ws (hC x (mem_of_mem_getLast? hx))
  rw [htrim]
  apply String.ext
  simp [List.append_assoc]

theorem normalizeInlineText_token {a b : String} (ha : LowerStr a) (hb : LowerStr b) :
    normalizeInlineText (a ++ BR_TOKEN ++ b) = a ++ BR_TOKEN ++ b := by
  apply normalizeInlineText_eq_self_of
  · intro x hx
    simp only [String.data_append] at hx
    rcases List.mem_append.mp hx with h1 | h2
    · rcases List.mem_append.mp h1 with h3 | h4
      · exact lower_not_ws (ha x h3)
      · exact brTok_not_ws x h4
    · exact lower_not_ws (hb x h2)
  · simp only [String.data_append]
    intro hx
    rcases List.mem_append.mp hx with h1 | h2
    · rcases List.mem_append.mp h1 with h3 | h4
      · exact lower_ne_amp (ha _ h3) rfl
      · exact brTok_ne_amp _ h4 rfl
    · exact lower_ne_amp (hb _ h2) rfl

theorem not_containsSub_of_not_mem {p : Char} {ps l : List Char} (h : p ∉ l) :
    containsSub (p :: ps) l = false := by
  induction l with
  | nil => rfl
  | cons c cs ih =>
      have hpc : (p == c) = false := by
        simp only [beq_eq_false_iff_ne, ne_eq]
        intro he
        exact h (he ▸ List.mem_cons_self c cs)
      simp only [containsSub, listPrefixOf, hpc, Bool.false_and, Bool.false_or]
      exact ih (fun hm => h (List.mem_cons_of_mem c hm))

theorem underscore_not_mem {L : List Char}
    (h : ∀ x ∈ L, isLowerAlpha x = true ∨ x = '\n') : '_' ∉ L := by
  intro hm
  have h95 : ('_').toNat = 95 := rfl
  rcases h _ hm with h1 | h1
  · obtain ⟨hg, _⟩ := lowerAlpha_toNat h1
    omega
  · exact absurd h1 (by decide)

/-! ## Trim idempotence -/

theorem dropWhile_ws_head_not : ∀ (l : List Char) (c : Char),
    (l.dropWhile isJsWs).head? = some c → isJsWs c = false := by
  intro l
  induction l with
  | nil => intro c hc; cases hc
  | cons a as ih =>
      intro c hc
      by_cases ha : isJsWs a = true
      · rw [List.dropWhile_cons_of_pos ha] at hc
        exact ih c hc
      · rw [List.dropWhile_cons_of_neg (by simpa using ha)] at hc
        cases hc
        simpa using ha

theorem dropWhile_ws_idem (l : List Char) :
    (l.dropWhile isJsWs).dropWhile isJsWs = l.dropWhile isJsWs :=
  dropWhile_ws_eq_self (dropWhile_ws_head_not l)

theorem jsTrim_idem (l : List Char) : jsTrim (jsTrim l) = jsTrim l := by
  have hyhead := dropWhile_ws_head_not l
  have hzrev : (jsTrim l).reverse = (l.dropWhile isJsWs).reverse.dropWhile isJsWs := by
    unfold jsTrim jsDropEndWs
    rw [List.reverse_reverse]
  have hzpre : jsTrim l <+: l.dropWhile isJsWs := by
    rw [← List.reverse_suffix, hzrev]
    exact List.dropWhile_suffix isJsWs
  obtain ⟨t, ht⟩ := hzpre
  have hzhead : ∀ c, (jsTrim l).head? = some c → isJsWs c = false := by
    intro c hc
    cases hz : jsTrim l with
    | nil => rw [hz] at hc; cases hc
    | cons z zs =>
        rw [hz] at hc ht
        have hz2 : (List.dropWhile isJsWs l).head? = some z := by
          rw [← ht]
          rfl
        have hcz : z = c := by simpa using hc
        rw [← hcz]
        exact hyhead z hz2
  rw [show jsTrim (jsTrim l) = jsDropEndWs ((jsTrim l).dropWhile isJsWs) from rfl]
  rw [dropWhile_ws_eq_self hzhead]
  rw [show jsDropEndWs (jsTrim l) = ((jsTrim l).reverse.dropWhile isJsWs).reverse from rfl]
  rw [hzrev, dropWhile_ws_idem, ← hzrev, List.reverse_reverse]

/-! ## De-duplication lemmas -/

theorem dedupFirstGo_fuel : ∀ (n m : Nat) (l : List String),
    l.length ≤ n → l.length ≤ m → dedupFirstGo n l = dedupFirstGo m l := by
  intro n
  induction n using Nat.strong_induction_on with
  | _ n ih =>
    intro m l hn hm
    cases l with
    | nil => cases n <;> cases m <;> rfl
    | cons x xs =>
        cases n with
        | zero => simp at hn
        | succ a =>
            cases m with
            | zero => simp at hm
            | succ b =>
                show x :: dedupFirstGo a (xs.filter (fun y => !(y == x))) =
                  x :: dedupFirstGo b (xs.filter (fun y => !(y == x)))
                have hf : (xs.filter (fun y => !(y == x))).length ≤ xs.length :=
                  (List.filter_sublist xs).length_le
                have hxa : xs.length ≤ a := by
                  simp only [List.length_cons] at hn
                  omega
                have hxb : xs.length ≤ b := by
                  simp only [List.length_cons] at hm
                  omega
                have := ih a (by omega) b (xs.filter (fun y => !(y == x)))
                  (le_trans hf hxa) (le_trans hf hxb)
                rw [this]

theorem dedupFirstSpec_nil : dedupFirstSpec [] = [] := rfl

theorem dedupFirstSpec_cons (x : String) (xs : List String) :
    dedupFirstSpec (x :: xs) = x :: dedupFirstSpec (xs.filter (fun y => !(y == x))) := by
  show dedupFirstGo (xs.length + 1) (x :: xs) = _
  show x :: dedupFirstGo xs.length (xs.filter (fun y => !(y == x))) = _
  have hf : (xs.filter (fun y => !(y == x))).length ≤ xs.length :=
    (List.filter_sublist xs).length_le
  rw [dedupFirstGo_fuel xs.length (xs.filter (fun y => !(y == x))).length _ hf (le_refl _)]
  rfl

theorem dedupFirstGo_sublist : ∀ (n : Nat) (l : List String),
    List.Sublist (dedupFirstGo n l) l := by
  intro n
  induction n with
  | zero =>
      intro l
      cases l with
      | nil => exact List.Sublist.refl []
      | cons x xs => exact List.nil_sublist _
  | succ m ih =>
      intro l
      cases l with
      | nil => exact List.Sublist.refl []
      | cons x xs =>
          show List.Sublist (x :: dedupFirstGo m (xs.filter (fun y => !(y == x)))) (x :: xs)
          exact List.Sublist.cons₂ x
            (List.Sublist.trans (ih _) (List.filter_sublist xs))

theorem dedupFirstGo_nodup : ∀ (n : Nat) (l : List String), (dedupFirstGo n l).Nodup := by
  intro n
  induction n with
  | zero =>
      intro l
      cases l with
      | nil => exact List.nodup_nil
      | cons x xs => exact List.nodup_nil
  | succ m ih =>
      intro l
      cases l with
      | nil => exact List.nodup_nil
      | cons x xs =>
          show (x :: dedupFirstGo m (xs.filter (fun y => !(y == x)))).Nodup
          refine List.Nodup.cons ?_ (ih _)
          intro hmem
          have hin : x ∈ xs.filter (fun y => !(y == x)) :=
            (dedupFirstGo_sublist m _).subset hmem
          have := (List.mem_filter.mp hin).2
          simp at this

theorem jsUniqGo_eq : ∀ (l acc : List String),
    jsUniqGo acc l = acc ++ dedupFirstSpec (l.filter (fun y => !(acc.contains y))) := by
  intro l
  induction l with
  | nil => intro acc; simp [jsUniqGo, dedupFirstSpec_nil]
  | cons p rest ih =>
      intro acc
      by_cases hp : acc.contains p = true
      · have hstep : jsUniqGo acc (p :: rest) = jsUniqGo acc rest := by
          simp only [jsUniqGo, hp, if_true]
        rw [hstep, ih acc]
        have hfilt : (p :: rest).filter (fun y => !(acc.contains y)) =
            rest.filter (fun y => !(acc.contains y)) := by
          rw [List.filter_cons, hp]
          simp
        rw [hfilt]
      · have hpb : acc.contains p = false := by simpa using hp
        have hstep : jsUniqGo acc (p :: rest) = jsUniqGo (acc ++ [p]) rest := by
          simp only [jsUniqGo, hpb]
          rfl
        rw [hstep, ih (acc ++ [p])]
        have hfilt : (p :: rest).filter (fun y => !(acc.contains y)) =
            p :: rest.filter (fun y => !(acc.contains y)) := by
          rw [List.filter_cons, hpb]
          simp
        rw [hfilt, dedupFirstSpec_cons]
        have hpred : (rest.filter (fun y => !(acc.contains y))).filter (fun y => !(y == p)) =
            rest.filter (fun y => !((acc ++ [p]).contains y)) := by
          rw [List.filter_filter]
          apply List.filter_congr
          intro y hy
          by_cases h1 : y ∈ acc <;> by_cases h2 : y = p <;>
            simp [List.contains, h1, h2]
        rw [hpred, List.append_assoc]
        rfl

theorem jsUniq_eq_dedupFirstSpec (l : List String) :
    jsUniqGo [] l = dedupFirstSpec l := by
  rw [jsUniqGo_eq l []]
  have : l.filter (fun y => !(([] : List String).contains y)) = l := by
    apply List.filter_eq_self.mpr
    intro a ha
    rfl
  rw [this]
  rfl

/-! ## Renderer refinement lemma -/

theorem bmAux_eq_spec : ∀ (n i : Nat) (blocks : List Block), blocks.length ≤ i + n →
    bmAux blocks n i = rendererLinesSpec (blocks.drop i) := by
  intro n
  induction n with
  | zero =>
      intro i blocks h
      rw [List.drop_eq_nil_of_le (by omega)]
      rfl
  | succ m ih =>
      intro i blocks h
      cases hgi : blocks.get? i with
      | none =>
          have hle : blocks.length ≤ i := List.get?_eq_none.mp hgi
          rw [List.drop_eq_nil_of_le hle]
          show bmAux blocks (m + 1) i = rendererLinesSpec []
          simp only [bmAux, hgi]
          rfl
      | some b =>
          have hib : i < blocks.length := by
            by_contra hh
            rw [List.get?_eq_none.mpr (by omega)] at hgi
            cases hgi
          have hbi : blocks[i] = b := by
            have := hgi
            rw [List.get?_eq_getElem?] at this
            exact (List.getElem?_eq_some_iff.mp this).choose_spec
          have hdrop : blocks.drop i = b :: blocks.drop (i + 1) := by
            rw [List.drop_eq_getElem_cons hib, hbi]
          cases hgn : blocks.get? (i + 1) with
          | none =>
              have h2 : blocks.length ≤ i + 1 := List.get?_eq_none.mp hgn
              have hnil : blocks.drop (i + 1) = [] := List.drop_eq_nil_of_le h2
              rw [hdrop, hnil]
              show bmAux blocks (m + 1) i = rendererLinesSpec [b]
              simp only [bmAux, hgi, hgn]
              rfl
          | some next =>
              have hin : i + 1 < blocks.length := by
                by_contra hh
                rw [List.get?_eq_none.mpr (by omega)] at hgn
                cases hgn
              have hbn : blocks[i + 1] = next := by
                have := hgn
                rw [List.get?_eq_getElem?] at this
                exact (List.getElem?_eq_some_iff.mp this).choose_spec
              have hdrop2 : blocks.drop (i + 1) = next :: blocks.drop (i + 2) := by
                rw [List.drop_eq_getElem_cons hin, hbn]
              have ihh := ih (i + 1) blocks (by omega)
              rw [hdrop, hdrop2]
              show bmAux blocks (m + 1) i = rendererLinesSpec (b :: next :: blocks.drop (i + 2))
              simp only [bmAux, hgi, hgn]
              rw [ihh, hdrop2]
              by_cases hli : b.kind = BlockKind.li ∧ next.kind = BlockKind.li
              · rw [if_pos hli]
                show _ = rendererLinesSpec (b :: next :: blocks.drop (i + 2))
                simp only [rendererLinesSpec, if_pos hli]
              · rw [if_neg hli]
                simp only [rendererLinesSpec, if_neg hli]

/-! ## Quote-escaping lemmas -/

theorem quotesEscapedFrom_escape : ∀ (l : List Char) (prev : Char),
    quotesEscapedFrom prev (escapeQuotesList l) = true := by
  intro l
  induction l with
  | nil => intro prev; rfl
  | cons c cs ih =>
      intro prev
      by_cases hc : (c == '"') = true
      · rw [show escapeQuotesList (c :: cs) = '\\' :: '"' :: escapeQuotesList cs by
          simp [escapeQuotesList, hc]]
        show ((('\\' != '"') || (prev == '\\')) &&
          quotesEscapedFrom '\\' ('"' :: escapeQuotesList cs)) = true
        rw [show quotesEscapedFrom '\\' ('"' :: escapeQuotesList cs) =
            ((('"' != '"') || ('\\' == '\\')) && quotesEscapedFrom '"' (escapeQuotesList cs))
          from rfl]
        rw [ih '"']
        rfl
      · rw [show escapeQuotesList (c :: cs) = c :: escapeQuotesList cs by
          simp [escapeQuotesList, hc]]
        show (((c != '"') || (prev == '\\')) && quotesEscapedFrom c (escapeQuotesList cs)) = true
        rw [ih c]
        have hne : (c != '"') = true := by simpa using hc
        rw [hne]
        rfl

theorem quotesEscaped_escapeQuotes (s : String) :
    quotesEscaped (escapeQuotes s).data = true :=
  quotesEscapedFrom_escape s.data 'a'

/-! ## Claims -/

/-- Claim C1, counterexample: during the walk of a valid nested list
(`li "A" ( li "B" ) `), the inner list-item element begins a new block while
the outer list-item block, holding text "A", is still open; the outer block
is discarded and never emitted (only "B" reaches the output), so a new block
does begin while another is open. -/
theorem claimC1_counterexample :
    (runWalk (fun _ _ => none) "" [Event.liStart, Event.liText "A"]).current =
      some { kind := BlockKind.li, text := "A" } ∧
    (stepEvent (fun _ _ => none) ""
        (runWalk (fun _ _ => none) "" [Event.liStart, Event.liText "A"])
        Event.liStart).current =
      some { kind := BlockKind.li, text := "" } ∧
    (runWalk (fun _ _ => none) ""
        [Event.liStart, Event.liText "A", Event.liStart, Event.liText "B",
          Event.liEnd, Event.liEnd]).blocks =
      [{ kind := BlockKind.li, text := "B" }] := by
  refine ⟨?_, ?_, ?_⟩ <;> rfl

/-- Claim C1 (amended): a heading-2, heading-3, or paragraph element match
opens no new block while the list-item nesting counter is positive (so those
kinds never begin while the enclosing list item's block is open); a list-item
element, however, always opens a fresh block, and when another block is open
at that moment the open block is overwritten and discarded without being
emitted. -/
theorem claimC1_amended (resolve : String → String → Option String) (fb : String)
    (s : WalkState) :
    (0 < s.inLiDepth →
      ((stepEvent resolve fb s Event.h2Start).current = s.current ∧
        (stepEvent resolve fb s Event.h2Start).blocks = s.blocks) ∧
      ((stepEvent resolve fb s Event.h3Start).current = s.current ∧
        (stepEvent resolve fb s Event.h3Start).blocks = s.blocks) ∧
      ((stepEvent resolve fb s Event.pStart).current = s.current ∧
        (stepEvent resolve fb s Event.pStart).blocks = s.blocks)) ∧
    ((stepEvent resolve fb s Event.liStart).current =
        some { kind := BlockKind.li, text := "" } ∧
      (stepEvent resolve fb s Event.liStart).blocks = s.blocks) := by
  constructor
  · intro h
    have hne : ¬s.inLiDepth = 0 := by omega
    refine ⟨⟨?_, ?_⟩, ⟨?_, ?_⟩, ⟨?_, ?_⟩⟩ <;> simp [stepEvent, hne]
  · constructor
    · by_cases hc : s.collectingTitle <;>
        simp [stepEvent, beginBlock, stopCollectingTitleIfNeeded, hc]
    · by_cases hc : s.collectingTitle <;>
        simp [stepEvent, beginBlock, stopCollectingTitleIfNeeded, hc]

/-- Claim C1, witness for the amended theorem at a state with one open list
item. -/
theorem claimC1_witness :
    0 < (runWalk (fun _ _ => none) "" [Event.liStart]).inLiDepth ∧
    (stepEvent (fun _ _ => none) "" (runWalk (fun _ _ => none) "" [Event.liStart])
        Event.h2Start).current =
      (runWalk (fun _ _ => none) "" [Event.liStart]).current ∧
    (stepEvent (fun _ _ => none) "" (runWalk (fun _ _ => none) "" [Event.liStart])
        Event.liStart).current = some { kind := BlockKind.li, text := "" } := by
  refine ⟨by decide, ?_, ?_⟩
  · exact (((claimC1_amended (fun _ _ => none) "" _).1 (by decide)).1).1
  · exact ((claimC1_amended (fun _ _ => none) "" _).2).1

/-- Claim C2, counterexample: a line-break event inside a heading-2 block
leaves the literal marker token in the emitted block text (inline
normalization does not strip it), and ordinary paragraph text containing the
marker is converted into a line break (the marker collides with real
content). -/
theorem claimC2_counterexample :
    (runWalk (fun _ _ => none) ""
        [Event.h2Start, Event.h2Text "a", Event.brTag, Event.h2Text "b",
          Event.h2End]).blocks =
      [{ kind := BlockKind.h2, text := "a__SSMD_BR__b" }] ∧
    containsSub BR_TOKEN.data ("a__SSMD_BR__b").data = true ∧
    (runWalk (fun _ _ => none) ""
        [Event.pStart, Event.pText "x __SSMD_BR__ y", Event.pEnd]).blocks =
      [{ kind := BlockKind.p, text := "x\ny" }] := by
  refine ⟨?_, ?_, ?_⟩ <;> rfl

/-- Claim C2 (amended): the reserved marker token is converted to a literal
line break only by block-preserving normalization; inline normalization
leaves the marker verbatim (so a line-break event inside a heading-2,
heading-3, or list-item block leaves marker text in the finalized block),
and text arriving as ordinary content is indistinguishable from a line-break
marker in paragraph blocks, where it becomes a newline. -/
theorem claimC2_amended (a b : String) (ha : LowerStr a) (hb : LowerStr b)
    (hae : a ≠ "") (hbe : b ≠ "") :
    normalizeInlineText (a ++ BR_TOKEN ++ b) = a ++ BR_TOKEN ++ b ∧
    normalizeBlockText (a ++ BR_TOKEN ++ b) = a ++ "\n" ++ b :=
  ⟨normalizeInlineText_token ha hb, normalizeBlockText_one_token ha hb hae hbe⟩

/-- Claim C2, witness for the amended theorem at concrete segments. -/
theorem claimC2_witness :
    LowerStr "x" ∧ LowerStr "y" ∧
    normalizeInlineText ("x" ++ BR_TOKEN ++ "y") = "x" ++ BR_TOKEN ++ "y" ∧
    normalizeBlockText ("x" ++ BR_TOKEN ++ "y") = "x" ++ "\n" ++ "y" := by
  refine ⟨by decide, by decide, ?_, ?_⟩
  · exact (claimC2_amended "x" "y" (by decide) (by decide) (by decide) (by decide)).1
  · exact (claimC2_amended "x" "y" (by decide) (by decide) (by decide) (by decide)).2

/-- Claim C3, counterexample: with a url value containing a double quote, the
assembled frontmatter contains the quote unescaped (the escaped form does not
occur in the document). -/
theorem claimC3_counterexample :
    containsSub ("url: \"u\"v\"").data (buildMarkdown "T" "D" "u\"v" "").data = true ∧
    containsSub ("u\\\"v").data (buildMarkdown "T" "D" "u\"v" "").data = false := by
  refine ⟨?_, ?_⟩ <;> rfl

/-- Claim C3 (amended): in the assembled document, double quotes inside the
title and description frontmatter values are backslash-escaped, while the url
value is interpolated verbatim (not escaped); the H1 line uses the raw
unescaped title, and the blockquote description line is present exactly when
the description is nonempty. -/
theorem claimC3_amended (t d u c : String) :
    buildMarkdown t d u c =
      "---\nversion: \"" ++ MARKDOWN_VERSION ++ "\"\ntitle: \"" ++ escapeQuotes t ++
        "\"\ndescription: \"" ++ escapeQuotes d ++ "\"\nurl: \"" ++ u ++
        "\"\n---\n\n# " ++ t ++ "\n\n" ++
        (if d = "" then "" else "> " ++ d ++ "\n\n") ++ c ∧
    quotesEscaped (escapeQuotes t).data = true ∧
    quotesEscaped (escapeQuotes d).data = true := by
  refine ⟨?_, quotesEscaped_escapeQuotes t, quotesEscaped_escapeQuotes d⟩
  apply String.ext
  by_cases hd : d = "" <;>
    simp [buildMarkdown, hd, List.append_assoc]

/-- Claim C4: the Markdown renderer emits one line per block with the claimed
per-kind prefixes and inserts exactly one blank separating line between
consecutive blocks unless both are list items; `rendererLinesSpec` is that
sentence written as a definition, and a concrete instance shows two adjacent
list items staying tight while a following paragraph is separated by a blank
line. -/
theorem claimC4_renderer (blocks : List Block) :
    blocksToMarkdown blocks =
      String.mk (jsTrim (String.intercalate "\n" (rendererLinesSpec blocks)).data) ∧
    blocksToMarkdown
        [{ kind := BlockKind.li, text := "a" }, { kind := BlockKind.li, text := "b" },
          { kind := BlockKind.p, text := "x" }] = "- a\n- b\n\nx" := by
  constructor
  · unfold blocksToMarkdown
    rw [bmAux_eq_spec blocks.length 0 blocks (by omega), List.drop_zero]
  · rfl

/-- Claim C5: the Title Reducer normalizes each fragment in inline mode,
drops empty results, deduplicates preserving first-occurrence order
(subsequent equal fragments are dropped, not moved: the result is a nodup
sublist of the cleaned sequence), joins survivors with single spaces, and the
output is trimmed and empty when no fragment survives. -/
theorem claimC5_title_reducer (parts : List String) :
    dedupeAndJoinTitle parts =
      String.mk (jsTrim (String.intercalate " "
        (dedupFirstSpec ((parts.map normalizeInlineText).filter (fun p => !(p == ""))))).data) ∧
    (dedupFirstSpec ((parts.map normalizeInlineText).filter (fun p => !(p == "")))).Nodup ∧
    List.Sublist
      (dedupFirstSpec ((parts.map normalizeInlineText).filter (fun p => !(p == ""))))
      ((parts.map normalizeInlineText).filter (fun p => !(p == ""))) ∧
    String.mk (jsTrim (dedupeAndJoinTitle parts).data) = dedupeAndJoinTitle parts ∧
    ((parts.map normalizeInlineText).filter (fun p => !(p == "")) = [] →
      dedupeAndJoinTitle parts = "") := by
  refine ⟨?_, dedupFirstGo_nodup _ _, dedupFirstGo_sublist _ _, ?_, ?_⟩
  · unfold dedupeAndJoinTitle
    rw [jsUniq_eq_dedupFirstSpec]
  · show String.mk (jsTrim (jsTrim (String.intercalate " "
      (jsUniqGo [] ((parts.map normalizeInlineText).filter (fun p => !(p == ""))))).data)) = _
    rw [jsTrim_idem]
    rfl
  · intro h0
    unfold dedupeAndJoinTitle
    rw [h0]
    rfl

/-- Claim C5, witness: a duplicated fragment with an empty third fragment
reduces to the single surviving value. -/
theorem claimC5_witness :
    dedupeAndJoinTitle ["welcome", "welcome", ""] = "welcome" := by
  have h := (claimC5_title_reducer ["welcome", "welcome", ""]).1
  rw [h]
  rfl

/-- Claim C6, counterexample: popping a hyperlink frame whose display text is
nonempty while no block is open drops the rendered fragment even though the
link stack still holds an outer frame — the fragment is not appended to the
next-outer frame, whose accumulated text stays empty. -/
theorem claimC6_counterexample :
    (runWalk (fun _ _ => none) ""
        [Event.aStart "u", Event.aStart "v", Event.aEnd]).linkStack =
      [{ href := "u", text := "" }] ∧
    linkDisplayText { href := "v", text := "" } = "v" ∧
    (runWalk (fun _ _ => none) ""
        [Event.aStart "u", Event.aStart "v", Event.aEnd]).current = none := by
  refine ⟨?_, ?_, ?_⟩ <;> rfl

/-- Claim C6 (amended): every hyperlink-end event pops the top frame and
normalizes its text in inline mode, falling back to the resolved href as
display text when the normalization is empty; when the display text is
nonempty the fragment goes through the shared append path, which requires an
open block — with no open block the fragment is dropped, otherwise it is
appended to the next-outer link frame when the stack is still nonempty and to
the open block when it is empty. -/
theorem claimC6_amended (resolve : String → String → Option String) (fb : String)
    (s : WalkState) (f : LinkFrame) (rest : List LinkFrame)
    (hstack : s.linkStack = f :: rest) :
    (normalizeInlineText f.text = "" → linkDisplayText f = f.href) ∧
    (linkDisplayText f = "" →
      stepEvent resolve fb s Event.aEnd = { s with linkStack := rest }) ∧
    (s.current = none →
      stepEvent resolve fb s Event.aEnd = { s with linkStack := rest }) ∧
    (∀ cur, s.current = some cur → linkDisplayText f ≠ "" →
      (rest = [] →
        stepEvent resolve fb s Event.aEnd =
          { s with linkStack := [],
                   current := some { cur with text := cur.text ++ linkFragment f } }) ∧
      (∀ g gs, rest = g :: gs →
        stepEvent resolve fb s Event.aEnd =
          { s with linkStack := { g with text := g.text ++ linkFragment f } :: gs })) := by
  have hpop : popLinkToCurrent s =
      (if linkDisplayText f = "" then { s with linkStack := rest }
       else appendToCurrent (linkFragment f) { s with linkStack := rest }) := by
    unfold popLinkToCurrent
    rw [hstack]
  have hstep : stepEvent resolve fb s Event.aEnd = popLinkToCurrent s := rfl
  refine ⟨?_, ?_, ?_, ?_⟩
  · intro h0
    simp [linkDisplayText, h0]
  · intro h0
    rw [hstep, hpop, if_pos h0]
  · intro hcur
    rw [hstep, hpop]
    by_cases hd : linkDisplayText f = ""
    · rw [if_pos hd]
    · rw [if_neg hd]
      simp [appendToCurrent, hcur]
  · intro cur hcur hd
    constructor
    · intro hrest
      subst hrest
      rw [hstep, hpop, if_neg hd]
      simp [appendToCurrent, hcur]
    · intro g gs hrest
      subst hrest
      rw [hstep, hpop, if_neg hd]
      simp [appendToCurrent, hcur]

/-- Claim C6, witness for the amended theorem: a single frame over an open
paragraph block receives the rendered fragment into the block text. -/
theorem claimC6_witness :
    stepEvent (fun _ _ => none) ""
        { current := some { kind := BlockKind.p, text := "t" },
          linkStack := [{ href := "h", text := "" }] } Event.aEnd =
      { current := some { kind := BlockKind.p, text := "t" ++ linkFragment ⟨"h", ""⟩ },
        linkStack := [] } := by
  exact ((claimC6_amended (fun _ _ => none) "" _ ⟨"h", ""⟩ [] rfl).2.2.2
    ⟨BlockKind.p, "t"⟩ rfl (by decide)).1 rfl

/-- Claim C7: block-preserving normalization of a paragraph containing two
line-break markers separated by text yields exactly one newline between
adjacent segments and leaves no literal marker token in the output. -/
theorem claimC7_block_normalization (a b c : String) (ha : LowerStr a)
    (hb : LowerStr b) (hc : LowerStr c) (hae : a ≠ "") (hbe : b ≠ "") (hce : c ≠ "") :
    normalizeBlockText (a ++ BR_TOKEN ++ b ++ BR_TOKEN ++ c) =
      a ++ "\n" ++ b ++ "\n" ++ c ∧
    containsSub BR_TOKEN.data
      (normalizeBlockText (a ++ BR_TOKEN ++ b ++ BR_TOKEN ++ c)).data = false := by
  have h1 := normalizeBlockText_two_tokens ha hb hc hae hbe hce
  refine ⟨h1, ?_⟩
  rw [h1, brTok_data_eq]
  apply not_containsSub_of_not_mem
  apply underscore_not_mem
  intro x hx
  simp only [String.data_append] at hx
  rcases List.mem_append.mp hx with h2 | h2
  · rcases List.mem_append.mp h2 with h3 | h3
    · rcases List.mem_append.mp h3 with h4 | h4
      · rcases List.mem_append.mp h4 with h5 | h5
        · exact Or.inl (ha x h5)
        · exact Or.inr (by simpa using h5)
      · exact Or.inl (hb x h4)
    · exact Or.inr (by simpa using h3)
  · exact Or.inl (hc x h2)

/-- Claim C7, witness at concrete segments. -/
theorem claimC7_witness :
    LowerStr "x" ∧ LowerStr "y" ∧ LowerStr "z" ∧
    normalizeBlockText ("x" ++ BR_TOKEN ++ "y" ++ BR_TOKEN ++ "z") =
      "x" ++ "\n" ++ "y" ++ "\n" ++ "z" := by
  refine ⟨by decide, by decide, by decide, ?_⟩
  exact (claimC7_block_normalization "x" "y" "z" (by decide) (by decide) (by decide)
    (by decide) (by decide) (by decide)).1

/-- Claim C8: while the list-item nesting counter is positive, heading-2,
heading-3, and paragraph element matches open no block and change nothing
observable, paragraph text is ignored while a list-item block is open, the
list item's own text capture proceeds through the ordinary append path, and a
paragraph nested inside a list item contributes its text only to the
enclosing list-item block with no independent paragraph block emitted. -/
theorem claimC8_nesting_suppression (resolve : String → String → Option String)
    (fb : String) (s : WalkState) (h : 0 < s.inLiDepth) :
    ((stepEvent resolve fb s Event.pStart).current = s.current ∧
      (stepEvent resolve fb s Event.pStart).blocks = s.blocks ∧
      (stepEvent resolve fb s Event.pStart).titleParts = s.titleParts ∧
      (stepEvent resolve fb s Event.pStart).linkStack = s.linkStack) ∧
    ((stepEvent resolve fb s Event.h2Start).current = s.current ∧
      (stepEvent resolve fb s Event.h2Start).blocks = s.blocks) ∧
    ((stepEvent resolve fb s Event.h3Start).current = s.current ∧
      (stepEvent resolve fb s Event.h3Start).blocks = s.blocks) ∧
    (∀ t cur, s.current = some cur → cur.kind = BlockKind.li →
      stepEvent resolve fb s (Event.pText t) = s ∧
      stepEvent resolve fb s (Event.liText t) = appendToCurrent t s) ∧
    (runWalk resolve fb
        [Event.liStart, Event.liText "a ", Event.pStart, Event.pText "b",
          Event.liText "b", Event.pEnd, Event.liText " c", Event.liEnd]).blocks =
      [{ kind := BlockKind.li, text := "a b c" }] := by
  have hne : ¬s.inLiDepth = 0 := by omega
  refine ⟨?_, ?_, ?_, ?_, ?_⟩
  · refine ⟨?_, ?_, ?_, ?_⟩ <;> simp [stepEvent, hne]
  · refine ⟨?_, ?_⟩ <;> simp [stepEvent, hne]
  · refine ⟨?_, ?_⟩ <;> simp [stepEvent, hne]
  · intro t cur hcur hk
    constructor
    · simp [stepEvent, hcur, hk]
    · simp [stepEvent, hcur, hk]
  · rfl

/-- Claim C8, witness at a state with one open list item. -/
theorem claimC8_witness :
    0 < (runWalk (fun _ _ => none) "" [Event.liStart]).inLiDepth ∧
    (stepEvent (fun _ _ => none) "" (runWalk (fun _ _ => none) "" [Event.liStart])
        Event.pStart).current =
      (runWalk (fun _ _ => none) "" [Event.liStart]).current := by
  refine ⟨by decide, ?_⟩
  exact ((claimC8_nesting_suppression (fun _ _ => none) "" _ (by decide)).1).1

/-- Claim C9: every hyperlink-start event resolves the href against the
canonical URL when one has been captured and otherwise against the fallback
URL, through the URL-resolution oracle; when resolution fails the raw
attribute value is kept verbatim as the resolved href, a fresh frame is
pushed, the step is total, and every other component of the state is
unchanged so the walk continues. -/
theorem claimC9_link_resolution (resolve : String → String → Option String)
    (fb : String) (s : WalkState) (href : String) :
    (stepEvent resolve fb s (Event.aStart href)).linkStack =
      { href := (resolve href (if s.canonical = "" then fb else s.canonical)).getD href,
        text := "" } :: s.linkStack ∧
    (resolve href (if s.canonical = "" then fb else s.canonical) = none →
      (stepEvent resolve fb s (Event.aStart href)).linkStack =
        { href := href, text := "" } :: s.linkStack) ∧
    (stepEvent resolve fb s (Event.aStart href)).current = s.current ∧
    (stepEvent resolve fb s (Event.aStart href)).blocks = s.blocks ∧
    (stepEvent resolve fb s (Event.aStart href)).description = s.description ∧
    (stepEvent resolve fb s (Event.aStart href)).canonical = s.canonical ∧
    (stepEvent resolve fb s (Event.aStart href)).titleParts = s.titleParts ∧
    (stepEvent resolve fb s (Event.aStart href)).collectingTitle = s.collectingTitle ∧
    (stepEvent resolve fb s (Event.aStart href)).inLiDepth = s.inLiDepth := by
  refine ⟨?_, ?_, ?_, ?_, ?_, ?_, ?_, ?_, ?_⟩
  · cases hr : resolve href (if s.canonical = "" then fb else s.canonical) <;>
      simp [stepEvent, pushLink, hr]
  · intro h0
    simp [stepEvent, pushLink, h0]
  all_goals simp [stepEvent, pushLink]

/-- Claim C9, witness: a failing oracle keeps the raw href verbatim. -/
theorem claimC9_witness :
    ((fun (_ _ : String) => (none : Option String)) "x"
        (if ({} : WalkState).canonical = "" then "" else ({} : WalkState).canonical) = none) ∧
    (stepEvent (fun _ _ => none) "" {} (Event.aStart "x")).linkStack =
      [{ href := "x", text := "" }] := by
  refine ⟨rfl, ?_⟩
  exact (claimC9_link_resolution (fun _ _ => none) "" {} "x").2.1 rfl

/-- Claim C10: the entity decoder applies its replacement passes sequentially
over the whole string, so the output of the ampersand pass is decoded again
by the later named and numeric passes — an escaped ampersand followed by an
entity body is decoded twice, and in particular the input "&amp;lt;" decodes
to "<" rather than to the literal text "&lt;". -/
theorem claimC10_sequential_decoding :
    decodeHtmlEntities "&amp;lt;" = "<" ∧
    decodeHtmlEntities "&amp;lt;" ≠ "&lt;" ∧
    decodeHtmlEntities "&amp;gt;" = ">" ∧
    decodeHtmlEntities "&amp;quot;" = "\"" ∧
    decodeHtmlEntities "&amp;#39;" = "\x27" ∧
    decodeHtmlEntities "&amp;apos;" = "\x27" ∧
    decodeHtmlEntities "&amp;#x3C;" = "<" ∧
    decodeHtmlEntities "&amp;#60;" = "<" ∧
    decodeHtmlEntities "a&amp;lt;b" = "a<b" := by
  refine ⟨rfl, by decide, rfl, rfl, rfl, rfl, rfl, rfl, rfl⟩
